import Mathlib

/-!
Verification of the lesion-simulation core of `utils/pic_process/pic_groundtruth.py`
(`PicGroundTruth.generate_stroke_so2` and `PicGroundTruth.batch_process`).

The Python code is shallowly embedded:

* pixel coordinates are integers; Euclidean distances are compared through their
  squares over `ℤ` (for nonnegative bounds, `d ≤ √s ↔ d² ≤ s`, so the embedding of
  every comparison `sqrt(dx²+dy²) ⋈ bound` is `dx²+dy² ⋈ bound²`, which is exact);
* the SO₂ signal values are real numbers; every call of `random.*` / `np.random.*`
  becomes an explicit parameter (an index draw, a list of sampled attempt points, a
  noise raster `ℤ → ℤ → ℝ`), and theorems quantify over all possible draws;
* the per-lesion `inf`-sentinel buffer becomes an `Option ℝ` candidate
  (`none` = unassigned), which is exact because the code only folds `min` over the
  `affected_mask` where the buffer was assigned.
-/

namespace PicGroundTruth

/-- A pixel / lattice point `(x, y)` as the Python code stores centers. -/
structure Pt where
  x : Int
  y : Int
deriving DecidableEq, Repr

/-- Squared Euclidean distance between two points
(the code compares `np.sqrt` of this against integer bounds). -/
def dist2 (p q : Pt) : Int := (p.x - q.x) ^ 2 + (p.y - q.y) ^ 2

theorem dist2_comm (p q : Pt) : dist2 p q = dist2 q p := by
  unfold dist2; ring

theorem dist2_nonneg (p q : Pt) : 0 ≤ dist2 p q := by
  unfold dist2; positivity

/-- Test `dist v c ≥ minD` for every already placed center `c`, written with squared
distances; this is the acceptance test of both placement paths
(`min_dists >= min_lesion_dist` and the `too_close` check). -/
def farFromAll (minD : Nat) (centers : List Pt) (v : Pt) : Bool :=
  centers.all fun c => ((minD : Int)) ^ 2 ≤ dist2 v c

/-- Default `min_lesion_dist` when the caller passes `None`: `min(h, w) // 6`. -/
def defaultMinLesionDist (h w : Nat) : Nat := min h w / 6

/-- Inset margin used by the fallback that places the *first* center when the mask
has no vessel pixel (line `margin = min_dim // 5`). -/
def firstFallbackMargin (h w : Nat) : Nat := min h w / 5

/-- Inset margin used by the rejection-sampling fallback for *subsequent* centers
(line `margin = min_dim // 10` inside the 50-attempt loop). -/
def laterFallbackMargin (h w : Nat) : Nat := min h w / 10

/-- Bound on rejection-sampling attempts for a subsequent center. -/
def maxFallbackAttempts : Nat := 50

/-- Membership in the inset sampling region
`[m, w-m] × [m, h-m]` from which both fallbacks draw `random.randint` pairs. -/
def inInsetRegion (h w m : Nat) (p : Pt) : Prop :=
  (m : Int) ≤ p.x ∧ p.x ≤ (w : Int) - m ∧ (m : Int) ≤ p.y ∧ p.y ≤ (h : Int) - m

instance (h w m : Nat) (p : Pt) : Decidable (inInsetRegion h w m p) := by
  unfold inInsetRegion; infer_instance

/-- The vessel pixels that keep distance `≥ minD` from every existing center —
the candidate set of the vessel-biased path (`valid_indices_idx`). -/
def validVessels (vessels centers : List Pt) (minD : Nat) : List Pt :=
  vessels.filter (farFromAll minD centers)

/-- The rejection-sampling fallback: scan the sampled attempt points in order and
accept the first whose distance to every existing center is `≥ minD`
(the `too_close` loop). -/
def findAttempt (attempts centers : List Pt) (minD : Nat) : Option Pt :=
  attempts.find? (farFromAll minD centers)

/-- One iteration of the subsequent-center loop: prefer a valid vessel pixel
(`idx` is the random index draw), otherwise fall back to rejection sampling over
`attempts`; `none` means this center is given up. -/
def nextCenter (vessels centers : List Pt) (minD : Nat) (idx : Nat)
    (attempts : List Pt) : Option Pt :=
  match (validVessels vessels centers minD)[idx %
      (validVessels vessels centers minD).length]? with
  | some c => some c
  | none => findAttempt attempts centers minD

/-- The first center: a random vessel pixel if any exists, otherwise the point the
first-center fallback sampled from the `min_dim // 5` inset region. -/
def firstCenter (vessels : List Pt) (idx : Nat) (fallback : Pt) : Pt :=
  match vessels[idx % vessels.length]? with
  | some c => c
  | none => fallback

/-- Random draws consumed by one subsequent-center iteration: the index draw for
the vessel-biased path and the (at most 50) fallback attempt points. -/
structure StepRand where
  idx : Nat
  attempts : List Pt

/-- The subsequent-center loop (`for _ in range(num_lesions - 1)`), threading the
accepted-centers accumulator and counting the given-up centers. Returns
`(centers, give-up count)`. -/
def placeStepsAux (vessels : List Pt) (minD : Nat) (rng : Nat → StepRand) :
    Nat → Nat → List Pt × Nat → List Pt × Nat
  | 0, _, acc => acc
  | n + 1, i, (cs, g) =>
    match nextCenter vessels cs minD (rng i).idx (rng i).attempts with
    | some c => placeStepsAux vessels minD rng n (i + 1) (cs ++ [c], g)
    | none => placeStepsAux vessels minD rng n (i + 1) (cs, g + 1)

/-- All accepted centers of one generation call with `num_lesions = k`:
the first center followed by the `k - 1` subsequent-center iterations. -/
def placeCenters (vessels : List Pt) (minD : Nat) (firstIdx : Nat) (firstFb : Pt)
    (rng : Nat → StepRand) (k : Nat) : List Pt :=
  (placeStepsAux vessels minD rng (k - 1) 0 ([firstCenter vessels firstIdx firstFb], 0)).1

/-- How many subsequent centers were given up (both paths exhausted). -/
def giveUpCount (vessels : List Pt) (minD : Nat) (firstIdx : Nat) (firstFb : Pt)
    (rng : Nat → StepRand) (k : Nat) : Nat :=
  (placeStepsAux vessels minD rng (k - 1) 0 ([firstCenter vessels firstIdx firstFb], 0)).2

/-- The dictionary returned by `generate_stroke_so2`:
`{'centers': centers, 'num_lesions': num_lesions}`. -/
structure GenSummary where
  centers : List Pt
  num_lesions : Nat
deriving Repr

/-- The summary of a successful generation call: `num_lesions` is the count drawn
from the range *before* placement, `centers` the accepted centers. -/
def genSummary (vessels : List Pt) (minD : Nat) (firstIdx : Nat) (firstFb : Pt)
    (rng : Nat → StepRand) (k : Nat) : GenSummary :=
  { centers := placeCenters vessels minD firstIdx firstFb rng k
    num_lesions := k }

/- ### Helper lemmas about the placement loop -/

theorem farFromAll_iff (minD : Nat) (centers : List Pt) (v : Pt) :
    farFromAll minD centers v = true ↔
      ∀ c ∈ centers, ((minD : Int)) ^ 2 ≤ dist2 v c := by
  simp [farFromAll, List.all_eq_true, decide_eq_true_eq]

theorem nextCenter_far (vessels centers : List Pt) (minD : Nat) (idx : Nat)
    (attempts : List Pt) (c : Pt)
    (h : nextCenter vessels centers minD idx attempts = some c) :
    ∀ p ∈ centers, ((minD : Int)) ^ 2 ≤ dist2 c p := by
  unfold nextCenter at h
  cases hv : (validVessels vessels centers minD)[idx %
      (validVessels vessels centers minD).length]? with
  | some v =>
    rw [hv] at h
    have hvc : v = c := by injection h
    subst hvc
    have hmem : v ∈ validVessels vessels centers minD := List.getElem?_mem hv
    have := (List.mem_filter.mp hmem).2
    exact (farFromAll_iff minD centers v).mp this
  | none =>
    rw [hv] at h
    have := List.find?_some h
    exact (farFromAll_iff minD centers c).mp this

/-- Pairwise separation predicate on a list of centers (squared form). -/
def Separated (minD : Nat) (cs : List Pt) : Prop :=
  cs.Pairwise fun p q => ((minD : Int)) ^ 2 ≤ dist2 p q

theorem placeStepsAux_separated (vessels : List Pt) (minD : Nat)
    (rng : Nat → StepRand) :
    ∀ (n i : Nat) (cs : List Pt) (g : Nat), Separated minD cs →
      Separated minD (placeStepsAux vessels minD rng n i (cs, g)).1 := by
  intro n
  induction n with
  | zero => intro i cs g h; simpa [placeStepsAux] using h
  | succ m ih =>
    intro i cs g h
    unfold placeStepsAux
    cases hnc : nextCenter vessels cs minD (rng i).idx (rng i).attempts with
    | some c =>
      apply ih
      have hfar := nextCenter_far vessels cs minD (rng i).idx (rng i).attempts c hnc
      unfold Separated at h ⊢
      rw [List.pairwise_append]
      refine ⟨h, by simp, ?_⟩
      intro p hp q hq
      simp only [List.mem_singleton] at hq
      subst hq
      rw [dist2_comm]
      exact hfar p hp
    | none => exact ih _ _ _ h

theorem placeStepsAux_length (vessels : List Pt) (minD : Nat)
    (rng : Nat → StepRand) :
    ∀ (n i : Nat) (cs : List Pt) (g : Nat),
      (placeStepsAux vessels minD rng n i (cs, g)).1.length
        + (placeStepsAux vessels minD rng n i (cs, g)).2
        = cs.length + g + n := by
  intro n
  induction n with
  | zero => intro i cs g; simp [placeStepsAux]
  | succ m ih =>
    intro i cs g
    unfold placeStepsAux
    cases hnc : nextCenter vessels cs minD (rng i).idx (rng i).attempts with
    | some c => rw [ih]; simp; omega
    | none => rw [ih]; omega

theorem placeStepsAux_length_ge (vessels : List Pt) (minD : Nat)
    (rng : Nat → StepRand) :
    ∀ (n i : Nat) (cs : List Pt) (g : Nat),
      cs.length ≤ (placeStepsAux vessels minD rng n i (cs, g)).1.length := by
  intro n
  induction n with
  | zero => intro i cs g; simp [placeStepsAux]
  | succ m ih =>
    intro i cs g
    unfold placeStepsAux
    cases hnc : nextCenter vessels cs minD (rng i).idx (rng i).attempts with
    | some c =>
      calc cs.length ≤ (cs ++ [c]).length := by simp
        _ ≤ _ := ih _ _ _
    | none => exact ih _ _ _

/-- C1, squared form: every output of the placement loop is pairwise separated. -/
theorem placeCenters_separated (vessels : List Pt) (minD : Nat) (firstIdx : Nat)
    (firstFb : Pt) (rng : Nat → StepRand) (k : Nat) :
    Separated minD (placeCenters vessels minD firstIdx firstFb rng k) := by
  unfold placeCenters
  apply placeStepsAux_separated
  unfold Separated
  simp

/-- C1: every pair of distinct accepted centers returned by a generation call is at
Euclidean distance at least `minLesionDistance`, whichever path accepted them
(vessel-biased or rejection-sampling fallback), for every possible sequence of
random draws and any configured `minD` (in particular the default
`defaultMinLesionDist h w = min h w / 6`). -/
theorem lesion_centers_pairwise_min_separation (vessels : List Pt) (minD : Nat)
    (firstIdx : Nat) (firstFb : Pt) (rng : Nat → StepRand) (k : Nat) :
    (placeCenters vessels minD firstIdx firstFb rng k).Pairwise
      fun p q => (minD : ℝ) ≤ Real.sqrt ((dist2 p q : Int) : ℝ) := by
  have hsep := placeCenters_separated vessels minD firstIdx firstFb rng k
  unfold Separated at hsep
  refine hsep.imp ?_
  intro p q hpq
  rw [Real.le_sqrt (by positivity) (by exact_mod_cast dist2_nonneg p q)]
  exact_mod_cast hpq

/-- C6 (counterexample): the claim says the first-center fallback and the
subsequent-center rejection-sampling fallback sample from the *same* inset region
with margin `min(H, W) / 5`; on a 100×100 raster the code insets the first-center
fallback by 20 but the subsequent-center fallback by only 10. -/
theorem fallback_margins_differ :
    firstFallbackMargin 100 100 = 20 ∧ laterFallbackMargin 100 100 = 10 ∧
      laterFallbackMargin 100 100 ≠ firstFallbackMargin 100 100 := by
  decide

/-- C6 (amended): the first-center fallback insets by `min(H, W) / 5` but the
subsequent-center rejection-sampling fallback insets by `min(H, W) / 10`; that
fallback makes at most 50 attempts, accepts the first sampled point whose
distance to every existing center is at least `minSeparation`, and the center is
omitted when no attempt is accepted and no valid vessel pixel exists. -/
theorem fallback_margin_and_rejection_sampling (h w : Nat) (centers : List Pt)
    (minD : Nat) (attempts : List Pt)
    (hlen : attempts.length ≤ maxFallbackAttempts) :
    firstFallbackMargin h w = min h w / 5 ∧
    laterFallbackMargin h w = min h w / 10 ∧
    (∀ p, findAttempt attempts centers minD = some p →
      p ∈ attempts ∧
      (∀ c ∈ centers, (minD : ℝ) ≤ Real.sqrt ((dist2 p c : Int) : ℝ)) ∧
      ∃ pre post, attempts = pre ++ p :: post ∧
        ∀ q ∈ pre, farFromAll minD centers q = false) ∧
    ((∀ p ∈ attempts, farFromAll minD centers p = false) →
      findAttempt attempts centers minD = none) ∧
    (∀ (vessels : List Pt) (idx : Nat),
      validVessels vessels centers minD = [] →
      findAttempt attempts centers minD = none →
      nextCenter vessels centers minD idx attempts = none) := by
  refine ⟨rfl, rfl, ?_, ?_, ?_⟩
  · intro p hfind
    have hspec := List.find?_eq_some.mp hfind
    obtain ⟨hp, pre, post, heq, hpre⟩ := hspec
    refine ⟨?_, ?_, pre, post, heq, ?_⟩
    · rw [heq]; simp
    · intro c hc
      have := (farFromAll_iff minD centers p).mp hp c hc
      rw [Real.le_sqrt (by positivity) (by exact_mod_cast dist2_nonneg p c)]
      exact_mod_cast this
    · intro q hq
      have := hpre q hq
      simpa using this
  · intro hall
    apply List.find?_eq_none.mpr
    intro p hp
    simp [hall p hp]
  · intro vessels idx hvalid hnone
    unfold nextCenter
    rw [hvalid]
    simpa using hnone

/-- Witness for the amended C6 at a concrete fallback run: two sampled attempts,
the first too close to the single existing center, the second accepted. -/
theorem fallback_margin_and_rejection_sampling_witness :
    ([Pt.mk 0 1, Pt.mk 10 10] : List Pt).length ≤ maxFallbackAttempts ∧
    Pt.mk 10 10 ∈ ([Pt.mk 0 1, Pt.mk 10 10] : List Pt) ∧
    (5 : ℝ) ≤ Real.sqrt ((dist2 (Pt.mk 10 10) (Pt.mk 0 0) : Int) : ℝ) := by
  have hthm := fallback_margin_and_rejection_sampling 100 100 [Pt.mk 0 0] 5
    [Pt.mk 0 1, Pt.mk 10 10] (by decide)
  have hfind : findAttempt [Pt.mk 0 1, Pt.mk 10 10] [Pt.mk 0 0] 5
      = some (Pt.mk 10 10) := by decide
  have hsome := hthm.2.2.1 (Pt.mk 10 10) hfind
  exact ⟨by decide, hsome.1, hsome.2.1 (Pt.mk 0 0) (by simp)⟩

/-- C9: the returned summary's `num_lesions` is the count `k` drawn from
`num_lesions_range` before placement, not the number of accepted centers;
exactly `1 + (k - 1)` centers are attempted, and whenever the fallback gives up
on one or more subsequent centers the reported `num_lesions` strictly exceeds
the length of the returned `centers` list. -/
theorem summary_reports_drawn_lesion_count (vessels : List Pt) (minD : Nat)
    (firstIdx : Nat) (firstFb : Pt) (rng : Nat → StepRand) (k : Nat) :
    (genSummary vessels minD firstIdx firstFb rng k).num_lesions = k ∧
    (genSummary vessels minD firstIdx firstFb rng k).centers.length
      + giveUpCount vessels minD firstIdx firstFb rng k = 1 + (k - 1) ∧
    (1 ≤ giveUpCount vessels minD firstIdx firstFb rng k →
      (genSummary vessels minD firstIdx firstFb rng k).centers.length
        < (genSummary vessels minD firstIdx firstFb rng k).num_lesions) := by
  have hlen := placeStepsAux_length vessels minD rng (k - 1) 0
    [firstCenter vessels firstIdx firstFb] 0
  have hge := placeStepsAux_length_ge vessels minD rng (k - 1) 0
    [firstCenter vessels firstIdx firstFb] 0
  simp only [List.length_singleton] at hlen hge
  refine ⟨rfl, ?_, ?_⟩
  · simpa [genSummary, placeCenters, giveUpCount] using hlen
  · intro hg
    simp only [genSummary, placeCenters, giveUpCount] at *
    omega

/-- Witness for C9: no vessel pixels, `k = 2`, and the single fallback attempt
for the second center lands on the first center, so the loop gives up and the
summary reports `num_lesions = 2` against one accepted center. -/
theorem summary_reports_drawn_lesion_count_witness :
    1 ≤ giveUpCount [] 5 0 (Pt.mk 10 10) (fun _ => StepRand.mk 0 [Pt.mk 10 10]) 2 ∧
    (genSummary [] 5 0 (Pt.mk 10 10)
        (fun _ => StepRand.mk 0 [Pt.mk 10 10]) 2).centers.length
      < (genSummary [] 5 0 (Pt.mk 10 10)
        (fun _ => StepRand.mk 0 [Pt.mk 10 10]) 2).num_lesions := by
  refine ⟨by decide, ?_⟩
  exact (summary_reports_drawn_lesion_count [] 5 0 (Pt.mk 10 10)
    (fun _ => StepRand.mk 0 [Pt.mk 10 10]) 2).2.2 (by decide)

/- ### Per-lesion field synthesis and compositing -/

/-- One lesion of a generation call: its accepted center, the drawn core radius,
penumbra width and core SO₂ value, and the per-pixel Gaussian noise raster drawn
for its penumbra (`np.random.normal(0, 5, ...)`). -/
structure Lesion where
  cx : Int
  cy : Int
  rCore : Nat
  wPen : Nat
  valCore : Nat
  noise : Int → Int → ℝ

/-- Squared distance of pixel `(x, y)` from the lesion center
(`dist_from_center` squared). -/
def ld2 (L : Lesion) (x y : Int) : Int := (x - L.cx) ^ 2 + (y - L.cy) ^ 2

theorem ld2_nonneg (L : Lesion) (x y : Int) : 0 ≤ ld2 L x y := by
  unfold ld2; positivity

/-- The `core_mask` test `dist_from_center <= r_core`, in squared form. -/
def inCore (L : Lesion) (x y : Int) : Bool :=
  ld2 L x y ≤ ((L.rCore : Int)) ^ 2

/-- The `penumbra_mask` test `r_core < dist_from_center <= r_core + w_penumbra`,
in squared form. -/
def inPen (L : Lesion) (x y : Int) : Bool :=
  (((L.rCore : Int)) ^ 2 < ld2 L x y) && (ld2 L x y ≤ ((L.rCore : Int) + L.wPen) ^ 2)

/-- The Euclidean distance field `dist_from_center` at pixel `(x, y)`. -/
noncomputable def distFromCenter (L : Lesion) (x y : Int) : ℝ :=
  Real.sqrt ((ld2 L x y : Int) : ℝ)

/-- The normalized radial penumbra coordinate
`norm_dists = (dist - r_core) / w_penumbra`. -/
noncomputable def penT (L : Lesion) (x y : Int) : ℝ :=
  (distFromCenter L x y - L.rCore) / L.wPen

/-- The per-lesion candidate SO₂ buffer `lesion_so2` at one pixel: `val_core` on
the core, the linear gradient toward `base_normal_so2` plus the penumbra noise on
the penumbra, and unassigned elsewhere (`none` embeds the `inf` sentinel, which
the compositing step never reads). -/
noncomputable def lesionSo2 (base : Nat) (L : Lesion) (x y : Int) : Option ℝ :=
  if inCore L x y then some ((L.valCore : ℝ))
  else if inPen L x y then
    some ((L.valCore : ℝ) + penT L x y * ((base : ℝ) - L.valCore) + L.noise x y)
  else none

/-- The per-lesion candidate label: 3 on the core, 2 on the penumbra
(the code's two `np.maximum` updates on the disjoint masks). -/
def lesionLabel (L : Lesion) (x y : Int) : Option Nat :=
  if inCore L x y then some 3 else if inPen L x y then some 2 else none

/-- The whole-image baseline: `base_normal_so2` plus the global noise raster
`np.random.normal(0, 3, ...)`. -/
noncomputable def baselineSo2 (base : Nat) (bnoise : Int → Int → ℝ) (x y : Int) : ℝ :=
  (base : ℝ) + bnoise x y

/-- One compositing step of the signal field: take the elementwise minimum with
the lesion's candidate where it is assigned, keep the accumulator elsewhere. -/
noncomputable def so2Step (base : Nat) (x y : Int) (acc : ℝ) (L : Lesion) : ℝ :=
  match lesionSo2 base L x y with
  | some v => min acc v
  | none => acc

/-- One compositing step of the label field: elementwise maximum with the
lesion's candidate label where it is assigned. -/
def labelStep (x y : Int) (acc : Nat) (L : Lesion) : Nat :=
  match lesionLabel L x y with
  | some v => max acc v
  | none => acc

/-- The value of `final_so2_map` at one pixel after the lesion loop: baseline folded through
the per-lesion minimum updates. -/
noncomputable def compositeSo2 (base : Nat) (bnoise : Int → Int → ℝ)
    (Ls : List Lesion) (x y : Int) : ℝ :=
  Ls.foldl (so2Step base x y) (baselineSo2 base bnoise x y)

/-- The value of `final_label_map` at one pixel after the lesion loop: label 1 (normal) folded
through the per-lesion maximum updates. -/
def compositeLabel (Ls : List Lesion) (x y : Int) : Nat :=
  Ls.foldl (labelStep x y) 1

/-- The binarization `cv2.threshold(mask, 10, 1, THRESH_BINARY)`: 1 where the mask intensity
exceeds 10, else 0. -/
def vesselBinary (mask : Int → Int → Nat) (x y : Int) : Nat :=
  if 10 < mask x y then 1 else 0

/-- The clamp `np.clip(v, 0, 255)`. -/
noncomputable def clip255 (v : ℝ) : ℝ := min 255 (max 0 v)

/-- The written signal raster at one pixel: clamp, gate by the binary vessel
raster, truncate to an 8-bit integer (`astype(np.uint8)` on a value already in
`[0, 255]`). -/
noncomputable def finalImgVal (mask : Int → Int → Nat) (base : Nat)
    (bnoise : Int → Int → ℝ) (Ls : List Lesion) (x y : Int) : Int :=
  ⌊clip255 (compositeSo2 base bnoise Ls x y) * ((vesselBinary mask x y : ℝ))⌋

/-- The written label raster at one pixel: gate by the binary vessel raster. -/
def finalLabelVal (mask : Int → Int → Nat) (Ls : List Lesion) (x y : Int) : Nat :=
  compositeLabel Ls x y * vesselBinary mask x y

/- ### Helper lemmas about the label fold -/

theorem lesionLabel_mem (L : Lesion) (x y : Int) (l : Nat)
    (h : lesionLabel L x y = some l) : l = 2 ∨ l = 3 := by
  unfold lesionLabel at h
  split at h
  · exact Or.inr (by injection h; omega)
  · split at h
    · exact Or.inl (by injection h; omega)
    · exact absurd h (by simp)

theorem labelFold_bounds (x y : Int) :
    ∀ (Ls : List Lesion) (a : Nat),
      a ≤ Ls.foldl (labelStep x y) a ∧ Ls.foldl (labelStep x y) a ≤ max a 3 := by
  intro Ls
  induction Ls with
  | nil => intro a; simp
  | cons L rest ih =>
    intro a
    simp only [List.foldl_cons]
    constructor
    · calc a ≤ labelStep x y a L := by
            unfold labelStep; split <;> simp
        _ ≤ _ := (ih _).1
    · calc rest.foldl (labelStep x y) (labelStep x y a L) ≤ max (labelStep x y a L) 3 :=
            (ih _).2
        _ ≤ max a 3 := by
            apply max_le _ (le_max_right _ _)
            unfold labelStep
            split
            · rename_i l hl
              rcases lesionLabel_mem L x y l hl with h2 | h2 <;> subst h2 <;>
                simp [max_le_iff] <;> omega
            · exact le_max_left _ _

theorem compositeLabel_bounds (Ls : List Lesion) (x y : Int) :
    1 ≤ compositeLabel Ls x y ∧ compositeLabel Ls x y ≤ 3 := by
  have h := labelFold_bounds x y Ls 1
  unfold compositeLabel
  exact ⟨h.1, by simpa using h.2⟩

/-- C3: at every non-vessel pixel (mask intensity not above the binarization
threshold 10), both written rasters hold 0: the clamped signal and the label are
each multiplied by the binary vessel-presence raster, regardless of the lesion
list, the baseline, and all noise draws. -/
theorem nonvessel_pixels_are_zero (mask : Int → Int → Nat) (base : Nat)
    (bnoise : Int → Int → ℝ) (Ls : List Lesion) (x y : Int)
    (hm : mask x y ≤ 10) :
    finalImgVal mask base bnoise Ls x y = 0 ∧ finalLabelVal mask Ls x y = 0 := by
  have hg : vesselBinary mask x y = 0 := by
    unfold vesselBinary
    rw [if_neg (by omega)]
  constructor
  · unfold finalImgVal
    rw [hg]
    simp
  · unfold finalLabelVal
    rw [hg, mul_zero]

/-- Witness for C3 at an all-black mask and an arbitrary pixel. -/
theorem nonvessel_pixels_are_zero_witness :
    (fun _ _ => 0 : Int → Int → Nat) 0 0 ≤ 10 ∧
    finalImgVal (fun _ _ => 0) 210 (fun _ _ => 0) [] 0 0 = 0 ∧
    finalLabelVal (fun _ _ => 0) [] 0 0 = 0 :=
  ⟨by decide,
    nonvessel_pixels_are_zero (fun _ _ => 0) 210 (fun _ _ => 0) [] 0 0 (by decide)⟩

/-- C4: whatever the mask, configuration, lesion parameters and Gaussian noise
draws, every written label value lies in `{0, 1, 2, 3}` and every written signal
value lies in `[0, 255]` after clamping, gating and the 8-bit cast. -/
theorem output_value_ranges (mask : Int → Int → Nat) (base : Nat)
    (bnoise : Int → Int → ℝ) (Ls : List Lesion) (x y : Int) :
    0 ≤ finalImgVal mask base bnoise Ls x y ∧
    finalImgVal mask base bnoise Ls x y ≤ 255 ∧
    finalLabelVal mask Ls x y ∈ ({0, 1, 2, 3} : Set Nat) := by
  have hclip0 : 0 ≤ clip255 (compositeSo2 base bnoise Ls x y) := by
    unfold clip255
    exact le_min (by norm_num) (le_max_left _ _)
  have hclip255 : clip255 (compositeSo2 base bnoise Ls x y) ≤ 255 :=
    min_le_left _ _
  have hgate : vesselBinary mask x y = 0 ∨ vesselBinary mask x y = 1 := by
    unfold vesselBinary; split <;> simp
  have hprod0 : 0 ≤ clip255 (compositeSo2 base bnoise Ls x y)
      * ((vesselBinary mask x y : ℝ)) := by
    apply mul_nonneg hclip0
    positivity
  have hprod255 : clip255 (compositeSo2 base bnoise Ls x y)
      * ((vesselBinary mask x y : ℝ)) ≤ 255 := by
    rcases hgate with h | h <;> rw [h] <;> push_cast <;> simpa using hclip255
  refine ⟨?_, ?_, ?_⟩
  · unfold finalImgVal
    exact Int.le_floor.mpr (by exact_mod_cast hprod0)
  · unfold finalImgVal
    have := Int.floor_le (clip255 (compositeSo2 base bnoise Ls x y)
      * ((vesselBinary mask x y : ℝ)))
    have h255 : ((⌊clip255 (compositeSo2 base bnoise Ls x y)
        * ((vesselBinary mask x y : ℝ))⌋ : ℤ) : ℝ) ≤ 255 := le_trans this hprod255
    exact_mod_cast h255
  · have hlab := compositeLabel_bounds Ls x y
    unfold finalLabelVal
    rcases hgate with h | h <;> rw [h]
    · simp
    · simp only [mul_one]
      have h1 := hlab.1
      have h3 := hlab.2
      interval_cases (compositeLabel Ls x y) <;> simp

/-- C10: a pixel of the written label raster is 0 exactly when its mask intensity
is not above the binarization threshold 10; every vessel pixel keeps a label in
`{1, 2, 3}` because the label map starts at 1 and is only ever raised by
elementwise maxima before the vessel gating. -/
theorem label_zero_iff_nonvessel (mask : Int → Int → Nat) (Ls : List Lesion)
    (x y : Int) :
    (finalLabelVal mask Ls x y = 0 ↔ mask x y ≤ 10) ∧
    (10 < mask x y →
      1 ≤ finalLabelVal mask Ls x y ∧ finalLabelVal mask Ls x y ≤ 3) := by
  have hlab := compositeLabel_bounds Ls x y
  constructor
  · constructor
    · intro h0
      by_contra hm
      push_neg at hm
      have hg : vesselBinary mask x y = 1 := by
        unfold vesselBinary; rw [if_pos hm]
      rw [finalLabelVal, hg, mul_one] at h0
      omega
    · intro hm
      have hg : vesselBinary mask x y = 0 := by
        unfold vesselBinary; rw [if_neg (by omega)]
      rw [finalLabelVal, hg, mul_zero]
  · intro hm
    have hg : vesselBinary mask x y = 1 := by
      unfold vesselBinary; rw [if_pos hm]
    rw [finalLabelVal, hg, mul_one]
    exact hlab

/-- Witness for C10 at a mask with intensity 42 at the pixel. -/
theorem label_zero_iff_nonvessel_witness :
    (finalLabelVal (fun _ _ => 42) [] 0 0 = 0 ↔ (fun _ _ => 42 : Int → Int → Nat) 0 0 ≤ 10) ∧
    1 ≤ finalLabelVal (fun _ _ => 42) [] 0 0 ∧
    finalLabelVal (fun _ _ => 42) [] 0 0 ≤ 3 :=
  ⟨(label_zero_iff_nonvessel (fun _ _ => 42) [] 0 0).1,
    (label_zero_iff_nonvessel (fun _ _ => 42) [] 0 0).2 (by decide)⟩

/- ### The compositing folds compute min / max -/

theorem so2Fold_le_init (base : Nat) (x y : Int) :
    ∀ (Ls : List Lesion) (a : ℝ), Ls.foldl (so2Step base x y) a ≤ a := by
  intro Ls
  induction Ls with
  | nil => intro a; simp
  | cons L rest ih =>
    intro a
    simp only [List.foldl_cons]
    calc rest.foldl (so2Step base x y) (so2Step base x y a L)
        ≤ so2Step base x y a L := ih _
      _ ≤ a := by unfold so2Step; split <;> simp

theorem so2Fold_le_some (base : Nat) (x y : Int) :
    ∀ (Ls : List Lesion) (a : ℝ) (L : Lesion) (v : ℝ), L ∈ Ls →
      lesionSo2 base L x y = some v → Ls.foldl (so2Step base x y) a ≤ v := by
  intro Ls
  induction Ls with
  | nil => intro a L v h; simp at h
  | cons M rest ih =>
    intro a L v hmem hv
    simp only [List.foldl_cons]
    rcases List.mem_cons.mp hmem with rfl | hmem
    · calc rest.foldl (so2Step base x y) (so2Step base x y a L)
          ≤ so2Step base x y a L := so2Fold_le_init base x y rest _
        _ ≤ v := by unfold so2Step; rw [hv]; simp
    · exact ih _ L v hmem hv

theorem so2Fold_attained (base : Nat) (x y : Int) :
    ∀ (Ls : List Lesion) (a : ℝ),
      Ls.foldl (so2Step base x y) a = a ∨
        ∃ L ∈ Ls, lesionSo2 base L x y = some (Ls.foldl (so2Step base x y) a) := by
  intro Ls
  induction Ls with
  | nil => intro a; simp
  | cons M rest ih =>
    intro a
    simp only [List.foldl_cons]
    rcases ih (so2Step base x y a M) with heq | ⟨L, hL, hsome⟩
    · cases hv : lesionSo2 base M x y with
      | some v =>
        have hstep : so2Step base x y a M = min a v := by
          unfold so2Step; rw [hv]
        rcases min_cases a v with ⟨hmin, _⟩ | ⟨hmin, _⟩
        · exact Or.inl (by rw [heq, hstep, hmin])
        · exact Or.inr ⟨M, List.mem_cons_self _ _, by rw [heq, hstep, hmin, hv]⟩
      | none =>
        have hstep : so2Step base x y a M = a := by
          unfold so2Step; rw [hv]
        exact Or.inl (by rw [heq, hstep])
    · exact Or.inr ⟨L, List.mem_cons_of_mem _ hL, hsome⟩

theorem labelFold_ge_some (x y : Int) :
    ∀ (Ls : List Lesion) (a : Nat) (L : Lesion) (l : Nat), L ∈ Ls →
      lesionLabel L x y = some l → l ≤ Ls.foldl (labelStep x y) a := by
  intro Ls
  induction Ls with
  | nil => intro a L l h; simp at h
  | cons M rest ih =>
    intro a L l hmem hl
    simp only [List.foldl_cons]
    rcases List.mem_cons.mp hmem with rfl | hmem
    · calc l ≤ labelStep x y a L := by unfold labelStep; rw [hl]; simp
        _ ≤ rest.foldl (labelStep x y) (labelStep x y a L) :=
          (labelFold_bounds x y rest _).1
    · exact ih _ L l hmem hl

theorem labelFold_attained (x y : Int) :
    ∀ (Ls : List Lesion) (a : Nat),
      Ls.foldl (labelStep x y) a = a ∨
        ∃ L ∈ Ls, lesionLabel L x y = some (Ls.foldl (labelStep x y) a) := by
  intro Ls
  induction Ls with
  | nil => intro a; simp
  | cons M rest ih =>
    intro a
    simp only [List.foldl_cons]
    rcases ih (labelStep x y a M) with heq | ⟨L, hL, hsome⟩
    · cases hv : lesionLabel M x y with
      | some v =>
        have hstep : labelStep x y a M = max a v := by
          unfold labelStep; rw [hv]
        rcases max_cases a v with ⟨hmax, _⟩ | ⟨hmax, _⟩
        · exact Or.inl (by rw [heq, hstep, hmax])
        · exact Or.inr ⟨M, List.mem_cons_self _ _, by rw [heq, hstep, hmax, hv]⟩
      | none =>
        have hstep : labelStep x y a M = a := by
          unfold labelStep; rw [hv]
        exact Or.inl (by rw [heq, hstep])
    · exact Or.inr ⟨L, List.mem_cons_of_mem _ hL, hsome⟩

/-- C2 (counterexample): two lesions overlap at pixel `(0, 0)` with candidate
values 30 and 60, but a baseline of `210 - 200 = 10` undercuts both, so the
composited signal is 10, not `min 30 60`: the claim's overlap clause omits the
whole-image baseline from the minimum. -/
theorem overlap_signal_not_min_of_two_candidates :
    lesionSo2 210 ⟨0, 0, 2, 1, 30, fun _ _ => 0⟩ 0 0 = some 30 ∧
    lesionSo2 210 ⟨1, 0, 2, 1, 60, fun _ _ => 0⟩ 0 0 = some 60 ∧
    compositeSo2 210 (fun _ _ => -200)
      [⟨0, 0, 2, 1, 30, fun _ _ => 0⟩, ⟨1, 0, 2, 1, 60, fun _ _ => 0⟩] 0 0 = 10 ∧
    (10 : ℝ) ≠ min (30 : ℝ) 60 := by
  have hc1 : inCore ⟨0, 0, 2, 1, 30, fun _ _ => 0⟩ (0 : Int) 0 = true := by decide
  have hc2 : inCore ⟨1, 0, 2, 1, 60, fun _ _ => 0⟩ (0 : Int) 0 = true := by decide
  have h1 : lesionSo2 210 ⟨0, 0, 2, 1, 30, fun _ _ => 0⟩ 0 0 = some 30 := by
    unfold lesionSo2
    rw [hc1]
    norm_num
  have h2 : lesionSo2 210 ⟨1, 0, 2, 1, 60, fun _ _ => 0⟩ 0 0 = some 60 := by
    unfold lesionSo2
    rw [hc2]
    norm_num
  refine ⟨h1, h2, ?_, by norm_num [min_def]⟩
  unfold compositeSo2
  simp only [List.foldl_cons, List.foldl_nil, so2Step, h1, h2, baselineSo2]
  norm_num [min_def]

/-- C2 (amended): the composited signal at a pixel is the minimum over the
whole-image baseline and all lesions' candidate values defined there, and the
composited label is the maximum over the baseline label 1 and all candidate
labels; at a pixel covered by two overlapping lesions the signal equals the
minimum of the baseline and the two candidate values (the two candidates alone
when neither exceeds the baseline) and the label equals the maximum of the two
candidate labels. -/
theorem composite_is_min_signal_max_label (base : Nat) (bnoise : Int → Int → ℝ)
    (Ls : List Lesion) (x y : Int) :
    (compositeSo2 base bnoise Ls x y ≤ baselineSo2 base bnoise x y) ∧
    (∀ L ∈ Ls, ∀ v, lesionSo2 base L x y = some v →
      compositeSo2 base bnoise Ls x y ≤ v) ∧
    (compositeSo2 base bnoise Ls x y = baselineSo2 base bnoise x y ∨
      ∃ L ∈ Ls, lesionSo2 base L x y = some (compositeSo2 base bnoise Ls x y)) ∧
    (∀ L ∈ Ls, ∀ l, lesionLabel L x y = some l → l ≤ compositeLabel Ls x y) ∧
    (compositeLabel Ls x y = 1 ∨
      ∃ L ∈ Ls, lesionLabel L x y = some (compositeLabel Ls x y)) ∧
    (∀ L₁ L₂ v₁ v₂, Ls = [L₁, L₂] → lesionSo2 base L₁ x y = some v₁ →
      lesionSo2 base L₂ x y = some v₂ →
      compositeSo2 base bnoise Ls x y
        = min (baselineSo2 base bnoise x y) (min v₁ v₂)) ∧
    (∀ L₁ L₂ l₁ l₂, Ls = [L₁, L₂] → lesionLabel L₁ x y = some l₁ →
      lesionLabel L₂ x y = some l₂ → compositeLabel Ls x y = max l₁ l₂) := by
  refine ⟨so2Fold_le_init base x y Ls _,
    fun L hL v hv => so2Fold_le_some base x y Ls _ L v hL hv,
    so2Fold_attained base x y Ls _,
    fun L hL l hl => labelFold_ge_some x y Ls _ L l hL hl,
    labelFold_attained x y Ls _, ?_, ?_⟩
  · intro L₁ L₂ v₁ v₂ hLs h1 h2
    subst hLs
    unfold compositeSo2
    simp only [List.foldl_cons, List.foldl_nil, so2Step, h1, h2]
    rw [min_assoc]
  · intro L₁ L₂ l₁ l₂ hLs h1 h2
    subst hLs
    unfold compositeLabel
    simp only [List.foldl_cons, List.foldl_nil, labelStep, h1, h2]
    rcases lesionLabel_mem L₁ x y l₁ h1 with h | h <;> subst h <;> omega

/-- Witness for the amended C2 at the two concrete overlapping core pixels of the
counterexample configuration, whose candidate values 30 and 60 both lie below
the baseline `210 + 0`. -/
theorem composite_is_min_signal_max_label_witness :
    compositeSo2 210 (fun _ _ => 0)
      [⟨0, 0, 2, 1, 30, fun _ _ => 0⟩, ⟨1, 0, 2, 1, 60, fun _ _ => 0⟩] 0 0
      = min (baselineSo2 210 (fun _ _ => 0) 0 0) (min 30 60) ∧
    compositeLabel
      [⟨0, 0, 2, 1, 30, fun _ _ => 0⟩, ⟨1, 0, 2, 1, 60, fun _ _ => 0⟩] 0 0
      = max 3 3 := by
  have hc1 : inCore ⟨0, 0, 2, 1, 30, fun _ _ => 0⟩ (0 : Int) 0 = true := by decide
  have hc2 : inCore ⟨1, 0, 2, 1, 60, fun _ _ => 0⟩ (0 : Int) 0 = true := by decide
  have h1 : lesionSo2 210 ⟨0, 0, 2, 1, 30, fun _ _ => 0⟩ 0 0 = some 30 := by
    unfold lesionSo2
    rw [hc1]
    norm_num
  have h2 : lesionSo2 210 ⟨1, 0, 2, 1, 60, fun _ _ => 0⟩ 0 0 = some 60 := by
    unfold lesionSo2
    rw [hc2]
    norm_num
  have hl1 : lesionLabel ⟨0, 0, 2, 1, 30, fun _ _ => 0⟩ (0 : Int) 0 = some 3 := by
    unfold lesionLabel
    rw [hc1]
    simp
  have hl2 : lesionLabel ⟨1, 0, 2, 1, 60, fun _ _ => 0⟩ (0 : Int) 0 = some 3 := by
    unfold lesionLabel
    rw [hc2]
    simp
  exact ⟨(composite_is_min_signal_max_label 210 (fun _ _ => 0) _ 0 0).2.2.2.2.2.1
      _ _ _ _ rfl h1 h2,
    (composite_is_min_signal_max_label 210 (fun _ _ => 0) _ 0 0).2.2.2.2.2.2
      _ _ _ _ rfl hl1 hl2⟩

/- ### The per-lesion candidate field (C5) -/

theorem inPen_not_inCore (L : Lesion) (x y : Int) (h : inPen L x y = true) :
    inCore L x y = false := by
  unfold inPen at h
  unfold inCore
  simp only [Bool.and_eq_true, decide_eq_true_eq] at h
  simp only [decide_eq_false_iff_not, not_le]
  exact h.1

theorem inPen_wPen_pos (L : Lesion) (x y : Int) (h : inPen L x y = true) :
    0 < L.wPen := by
  rcases Nat.eq_zero_or_pos L.wPen with hw0 | hpos
  · exfalso
    unfold inPen at h
    simp only [Bool.and_eq_true, decide_eq_true_eq] at h
    rw [hw0] at h
    simp only [Nat.cast_zero, add_zero] at h
    exact absurd (lt_of_lt_of_le h.1 h.2) (lt_irrefl _)
  · exact hpos

/-- C5: each lesion's candidate signal field is the constant `coreValue` on its
core, `coreValue + t·(baseNormalValue − coreValue)` plus that lesion's drawn
per-pixel noise on its penumbra with `t = (distance − coreRadius)/penumbraWidth
∈ [0, 1]`, and unassigned (`none`, embedding the `inf` sentinel) at every other
pixel, so the lesion never overrides unrelated pixels during compositing. -/
theorem lesion_candidate_field (base : Nat) (L : Lesion) (x y : Int) :
    (inCore L x y = true → lesionSo2 base L x y = some ((L.valCore : ℝ))) ∧
    (inPen L x y = true →
      lesionSo2 base L x y
        = some ((L.valCore : ℝ) + penT L x y * ((base : ℝ) - L.valCore)
            + L.noise x y) ∧
      0 ≤ penT L x y ∧ penT L x y ≤ 1) ∧
    (inCore L x y = false → inPen L x y = false → lesionSo2 base L x y = none) := by
  refine ⟨?_, ?_, ?_⟩
  · intro h
    unfold lesionSo2
    rw [h]
    simp
  · intro h
    have hc := inPen_not_inCore L x y h
    have hw := inPen_wPen_pos L x y h
    unfold inPen at h
    simp only [Bool.and_eq_true, decide_eq_true_eq] at h
    obtain ⟨hlo, hhi⟩ := h
    constructor
    · unfold lesionSo2
      rw [hc]
      simp only [Bool.false_eq_true, if_false]
      rw [if_pos]
      unfold inPen
      simp only [Bool.and_eq_true, decide_eq_true_eq]
      exact ⟨hlo, hhi⟩
    · have hd0 : (0 : ℝ) ≤ ((ld2 L x y : Int) : ℝ) := by
        exact_mod_cast ld2_nonneg L x y
      have hrle : ((L.rCore : ℝ)) ≤ distFromCenter L x y := by
        unfold distFromCenter
        rw [Real.le_sqrt (by positivity) hd0]
        have : ((L.rCore : Int) : ℝ) ^ 2 ≤ ((ld2 L x y : Int) : ℝ) := by
          exact_mod_cast le_of_lt hlo
        exact_mod_cast this
      have hsle : distFromCenter L x y ≤ (L.rCore : ℝ) + L.wPen := by
        unfold distFromCenter
        rw [Real.sqrt_le_iff]
        constructor
        · positivity
        · have : ((ld2 L x y : Int) : ℝ) ≤ (((L.rCore : Int) + L.wPen : Int) : ℝ) ^ 2 := by
            exact_mod_cast hhi
          push_cast at this ⊢
          linarith
      have hwR : (0 : ℝ) < (L.wPen : ℝ) := by exact_mod_cast hw
      constructor
      · unfold penT
        apply div_nonneg _ (le_of_lt hwR)
        linarith
      · unfold penT
        rw [div_le_one hwR]
        linarith
  · intro hc hp
    unfold lesionSo2
    rw [hc, hp]
    simp

/-- Witness for C5 on a concrete lesion (center `(0,0)`, core radius 2, penumbra
width 3): pixel `(0,0)` is core, pixel `(0,3)` penumbra, pixel `(0,9)` outside. -/
theorem lesion_candidate_field_witness :
    lesionSo2 250 ⟨0, 0, 2, 3, 40, fun _ _ => 0⟩ 0 0 = some (((40 : Nat) : ℝ)) ∧
    (0 ≤ penT ⟨0, 0, 2, 3, 40, fun _ _ => 0⟩ 0 3 ∧
      penT ⟨0, 0, 2, 3, 40, fun _ _ => 0⟩ 0 3 ≤ 1) ∧
    lesionSo2 250 ⟨0, 0, 2, 3, 40, fun _ _ => 0⟩ 0 9 = none :=
  ⟨(lesion_candidate_field 250 ⟨0, 0, 2, 3, 40, fun _ _ => 0⟩ 0 0).1 (by decide),
    ((lesion_candidate_field 250 ⟨0, 0, 2, 3, 40, fun _ _ => 0⟩ 0 3).2.1 (by decide)).2,
    (lesion_candidate_field 250 ⟨0, 0, 2, 3, 40, fun _ _ => 0⟩ 0 9).2.2
      (by decide) (by decide)⟩

/- ### Batch processing (`batch_process`) -/

/-- A file of the input directory, split as `os.path.splitext(os.path.basename(p))`
does: the stem before the last dot and the extension from the last dot on. -/
structure MaskFile where
  base : String
  ext : String

/-- The file's name, `base + ext`. -/
def fileName (f : MaskFile) : String := f.base ++ f.ext

/-- ASCII lower-casing of one character (`str.lower` on filename characters). -/
def lowerChar (c : Char) : Char :=
  if 'A' ≤ c ∧ c ≤ 'Z' then Char.ofNat (c.toNat + 32) else c

/-- ASCII lower-casing of a string. -/
def lowerStr (s : String) : String := String.mk (s.data.map lowerChar)

/-- Python's `s.endswith(suffix)`. -/
def strEndsWith (s suffix : String) : Bool := suffix.data.isSuffixOf s.data

/-- The extension filter `f.lower().endswith(('.png', '.jpg', '.jpeg'))`. -/
def hasImageExt (name : String) : Bool :=
  strEndsWith (lowerStr name) ".png" || strEndsWith (lowerStr name) ".jpg"
    || strEndsWith (lowerStr name) ".jpeg"

/-- Python's `f"{n:02d}"`: zero-pad to two digits. -/
def twoDigit (n : Nat) : String :=
  if n < 10 then "0" ++ toString n else toString n

/-- The variant suffix rule of the batch loop for the 0-based
variant loop index `i`. -/
def simSuffix (count i : Nat) : String :=
  if 1 < count then "_sim_" ++ twoDigit (i + 1) else ""

/-- The signal file name: base name, variant suffix, and the png extension. -/
def outImgName (base : String) (count i : Nat) : String :=
  base ++ simSuffix count i ++ ".png"

/-- The label file name: the signal file name with `_label` before the extension. -/
def outLabelName (base : String) (count i : Nat) : String :=
  base ++ simSuffix count i ++ "_label.png"

/-- The observable outcome of one `generate_stroke_so2` call: the returned
summary (`none` embeds the `return None` on an unreadable mask), the signal and
label files written, and the log lines printed. -/
structure CallOutcome where
  summary : Option GenSummary
  imgWrite : Option String
  labelWrite : Option String
  logs : List String

/-- One `generate_stroke_so2` call at the I/O level: if the mask decodes, the
signal raster is written and the label raster too when a label path was given;
otherwise the failure is logged once, nothing is written, and `None` is
returned to the caller (no retry). -/
def generateCall (decodeOk : Bool) (s : GenSummary) (imgPath : String)
    (labelPath : Option String) (maskPath : String) : CallOutcome :=
  if decodeOk then
    { summary := some s, imgWrite := some imgPath, labelWrite := labelPath
      logs := [] }
  else
    { summary := none, imgWrite := none, labelWrite := none
      logs := ["cannot read: " ++ maskPath] }

/-- The loop of `batch_process`: filter the directory listing by recognized image
extensions, then for every kept file and every variant index `i < count`, build
the output names and run one generation call. -/
def batchOutcomes (decode : String → Bool) (s : GenSummary)
    (listing : List MaskFile) (count : Nat) (withLabel : Bool) :
    List CallOutcome :=
  (listing.filter fun f => hasImageExt (fileName f)).flatMap fun f =>
    (List.range count).map fun i =>
      generateCall (decode (fileName f)) s (outImgName f.base count i)
        (if withLabel then some (outLabelName f.base count i) else none)
        (fileName f)

/-- The signal files a batch run writes. -/
def batchSignalFiles (decode : String → Bool) (s : GenSummary)
    (listing : List MaskFile) (count : Nat) (withLabel : Bool) : List String :=
  (batchOutcomes decode s listing count withLabel).filterMap CallOutcome.imgWrite

/-- The label files a batch run writes. -/
def batchLabelFiles (decode : String → Bool) (s : GenSummary)
    (listing : List MaskFile) (count : Nat) (withLabel : Bool) : List String :=
  (batchOutcomes decode s listing count withLabel).filterMap CallOutcome.labelWrite

/-- C7: an undecodable mask makes the single generation call return the `none`
summary to its caller with nothing written and the failure logged, and at batch
level such a file contributes no writes while the remaining files are processed
unchanged. -/
theorem unreadable_input_skipped_batch_continues (s : GenSummary)
    (img mp : String) (lbl : Option String) (decode : String → Bool)
    (f : MaskFile) (rest : List MaskFile) (c : Nat) (wl : Bool)
    (hdec : decode (fileName f) = false) :
    (generateCall false s img lbl mp).summary = none ∧
    (generateCall false s img lbl mp).imgWrite = none ∧
    (generateCall false s img lbl mp).labelWrite = none ∧
    (generateCall false s img lbl mp).logs ≠ [] ∧
    batchSignalFiles decode s (f :: rest) c wl
      = batchSignalFiles decode s rest c wl ∧
    batchLabelFiles decode s (f :: rest) c wl
      = batchLabelFiles decode s rest c wl := by
  refine ⟨rfl, rfl, rfl, by simp [generateCall], ?_, ?_⟩
  · unfold batchSignalFiles batchOutcomes
    rw [List.filter_cons]
    split
    · rw [List.flatMap_cons, List.filterMap_append]
      simp [hdec, generateCall, List.filterMap_map, Function.comp]
    · rfl
  · unfold batchLabelFiles batchOutcomes
    rw [List.filter_cons]
    split
    · rw [List.flatMap_cons, List.filterMap_append]
      simp [hdec, generateCall, List.filterMap_map, Function.comp]
    · rfl

/-- Witness for C7: a one-file batch whose mask never decodes writes nothing. -/
theorem unreadable_input_skipped_batch_continues_witness :
    (fun _ => false : String → Bool) (fileName ⟨"a", ".png"⟩) = false ∧
    (generateCall false ⟨[], 1⟩ "o.png" none "m.png").summary = none ∧
    (generateCall false ⟨[], 1⟩ "o.png" none "m.png").imgWrite = none ∧
    batchSignalFiles (fun _ => false) ⟨[], 1⟩ [⟨"a", ".png"⟩] 1 true
      = batchSignalFiles (fun _ => false) ⟨[], 1⟩ [] 1 true := by
  have h := unreadable_input_skipped_batch_continues (GenSummary.mk [] 1)
    "o.png" "m.png" none (fun _ => false) ⟨"a", ".png"⟩ [] 1 true rfl
  exact ⟨rfl, h.1, h.2.1, h.2.2.2.2.1⟩

theorem filterMap_eq_map_of_some {α β : Type} (g : α → Option β) (f : α → β)
    (h : ∀ a, g a = some (f a)) : ∀ l : List α, l.filterMap g = l.map f := by
  intro l
  induction l with
  | nil => rfl
  | cons a rest ih => rw [List.filterMap_cons, h a, List.map_cons, ih]

theorem length_flatMap_range_map {β : Type} (c : Nat) (g : MaskFile → Nat → β) :
    ∀ l : List MaskFile,
      (l.flatMap fun f => (List.range c).map (g f)).length = l.length * c := by
  intro l
  induction l with
  | nil => simp
  | cons f rest ih =>
    rw [List.flatMap_cons, List.length_append, ih]
    simp only [List.length_map, List.length_range, List.length_cons]
    ring

/-- C8: over a directory whose `n` recognized mask files all decode, a batch run
with `countPerImage = c` and a label directory configured writes exactly `n·c`
signal files and `n·c` label files; the 0-based variant `i` of base name `B` is
named `B` + `_sim_NN` + `.png` with two-digit `NN = i + 1` exactly when `c > 1`
(no suffix when `c = 1`), and its label file is the signal file name with
`_label` inserted before the extension. -/
theorem batch_output_counts_and_naming (decode : String → Bool) (s : GenSummary)
    (listing : List MaskFile) (c : Nat)
    (hrec : ∀ f ∈ listing, hasImageExt (fileName f) = true)
    (hdec : ∀ f ∈ listing, decode (fileName f) = true) :
    batchSignalFiles decode s listing c true
      = listing.flatMap (fun f => (List.range c).map fun i => outImgName f.base c i) ∧
    batchLabelFiles decode s listing c true
      = listing.flatMap (fun f => (List.range c).map fun i => outLabelName f.base c i) ∧
    (batchSignalFiles decode s listing c true).length = listing.length * c ∧
    (batchLabelFiles decode s listing c true).length = listing.length * c ∧
    (∀ (b : String) (i : Nat), ∃ stem,
      outImgName b c i = stem ++ ".png" ∧ outLabelName b c i = stem ++ "_label.png") ∧
    (c = 1 → ∀ (b : String) (i : Nat), outImgName b c i = b ++ ".png") ∧
    (1 < c → ∀ (b : String) (i : Nat),
      outImgName b c i = b ++ "_sim_" ++ twoDigit (i + 1) ++ ".png" ∧
      (i + 1 < 10 → twoDigit (i + 1) = "0" ++ toString (i + 1))) := by
  have hfil : listing.filter (fun f => hasImageExt (fileName f)) = listing :=
    List.filter_eq_self.mpr hrec
  have hchar : ∀ l : List MaskFile, (∀ f ∈ l, decode (fileName f) = true) →
      (List.filterMap CallOutcome.imgWrite
          (l.flatMap fun f => (List.range c).map fun i =>
            generateCall (decode (fileName f)) s (outImgName f.base c i)
              (if true = true then some (outLabelName f.base c i) else none)
              (fileName f))
        = l.flatMap fun f => (List.range c).map fun i => outImgName f.base c i) ∧
      (List.filterMap CallOutcome.labelWrite
          (l.flatMap fun f => (List.range c).map fun i =>
            generateCall (decode (fileName f)) s (outImgName f.base c i)
              (if true = true then some (outLabelName f.base c i) else none)
              (fileName f))
        = l.flatMap fun f => (List.range c).map fun i => outLabelName f.base c i) := by
    intro l
    induction l with
    | nil => intro _; exact ⟨rfl, rfl⟩
    | cons f rest ih =>
      intro hd
      have ihr := ih fun g hg => hd g (List.mem_cons_of_mem _ hg)
      have hdf := hd f (List.mem_cons_self _ _)
      constructor
      · rw [List.flatMap_cons, List.flatMap_cons, List.filterMap_append, ihr.1,
          List.filterMap_map]
        congr 1
        apply filterMap_eq_map_of_some
        intro i
        simp [Function.comp, hdf, generateCall]
      · rw [List.flatMap_cons, List.flatMap_cons, List.filterMap_append, ihr.2,
          List.filterMap_map]
        congr 1
        apply filterMap_eq_map_of_some
        intro i
        simp [Function.comp, hdf, generateCall]
  have hsig : batchSignalFiles decode s listing c true
      = listing.flatMap (fun f => (List.range c).map fun i => outImgName f.base c i) := by
    unfold batchSignalFiles batchOutcomes
    rw [hfil]
    exact (hchar listing hdec).1
  have hlab : batchLabelFiles decode s listing c true
      = listing.flatMap (fun f => (List.range c).map fun i => outLabelName f.base c i) := by
    unfold batchLabelFiles batchOutcomes
    rw [hfil]
    exact (hchar listing hdec).2
  refine ⟨hsig, hlab, ?_, ?_, ?_, ?_, ?_⟩
  · rw [hsig]
    exact length_flatMap_range_map c (fun f i => outImgName f.base c i) listing
  · rw [hlab]
    exact length_flatMap_range_map c (fun f i => outLabelName f.base c i) listing
  · intro b i
    exact ⟨b ++ simSuffix c i, rfl, rfl⟩
  · intro hc b i
    subst hc
    simp [outImgName, simSuffix]
  · intro hc b i
    constructor
    · rw [outImgName, simSuffix, if_pos hc]
      simp [String.append_assoc]
    · intro hi
      rw [twoDigit, if_pos hi]

/-- Witness for C8: three recognized, decodable masks and `countPerImage = 2`
yield exactly six signal files and six label files. -/
theorem batch_output_counts_and_naming_witness :
    (batchSignalFiles (fun _ => true) ⟨[], 1⟩
      [⟨"a", ".png"⟩, ⟨"b", ".jpg"⟩, ⟨"c", ".jpeg"⟩] 2 true).length = 3 * 2 ∧
    (batchLabelFiles (fun _ => true) ⟨[], 1⟩
      [⟨"a", ".png"⟩, ⟨"b", ".jpg"⟩, ⟨"c", ".jpeg"⟩] 2 true).length = 3 * 2 := by
  have h := batch_output_counts_and_naming (fun _ => true) (GenSummary.mk [] 1)
    [⟨"a", ".png"⟩, ⟨"b", ".jpg"⟩, ⟨"c", ".jpeg"⟩] 2
    (by intro f hf; fin_cases hf <;> decide) (fun _ _ => rfl)
  exact ⟨h.2.2.1, h.2.2.2.1⟩
